import Mathlib

/-! Verification of the envoy-api signature / key-derivation / payload-cipher pipeline.

Shallow embedding of the `envoy-api` ingest gateway (`src/main.py`, with the
client-side cipher usage of `src/test_client.py`).  Byte strings are `List Nat`
with every element `< 256`; 32-bit words are `Nat` reduced `% 2^32` where
overflow matters.  The cryptographic primitives called by the source
(`hashlib.sha256`, `hmac`, HKDF-SHA256 from the `cryptography` package, and the
Fernet token format) are implemented concretely below, following their public
specifications (FIPS 180-4, RFC 2104, RFC 5869, and the Fernet spec), except
for the AES-128 block operation inside Fernet, which is kept as an explicit
`BlockCipher` parameter.
-/

set_option maxRecDepth 100000
set_option maxHeartbeats 4000000

/-- A byte string: a list of naturals, each intended to be `< 256`. -/
abbrev Bytes := List Nat

/-- Every element of the list is a byte value. -/
def isBytes (l : Bytes) : Prop := ∀ x ∈ l, x < 256

instance (l : Bytes) : Decidable (isBytes l) := by
  unfold isBytes; infer_instance

/-- Reduce modulo `2^32` (32-bit word arithmetic). -/
def u32 (n : Nat) : Nat := n % 4294967296

/-- Big-endian serialization of `n` into `k` bytes (low-order `8k` bits of `n`). -/
def toBE (k : Nat) (n : Nat) : Bytes :=
  (List.range k).reverse.map (fun i => (n >>> (8 * i)) % 256)

/-- Big-endian word value of a byte string. -/
def beWord (l : Bytes) : Nat := l.foldl (fun a b => a * 256 + b) 0

/-- Fuel-driven worker for `chunks` (structural recursion on the fuel, so that the
kernel can evaluate it). The fuel is always instantiated with the list length, which
is sufficient because each step drops at least one element. -/
def chunksAux (k : Nat) : Nat → Bytes → List Bytes
  | _, [] => []
  | 0, _ => []
  | fuel + 1, x :: xs => (x :: xs).take (k + 1) :: chunksAux k fuel ((x :: xs).drop (k + 1))

/-- Split a list into chunks of `k+1` elements (the successor argument guarantees
progress); the final chunk may be shorter. -/
def chunks (k : Nat) (l : Bytes) : List Bytes := chunksAux k l.length l

theorem chunksAux_nil (k : Nat) (f : Nat) : chunksAux k f [] = [] := by
  cases f <;> rfl

theorem chunksAux_congr (k : Nat) :
    ∀ (f1 f2 : Nat) (l : Bytes), l.length ≤ f1 → l.length ≤ f2 →
      chunksAux k f1 l = chunksAux k f2 l := by
  intro f1
  induction f1 with
  | zero =>
    intro f2 l h1 _
    have : l = [] := List.length_eq_zero.mp (Nat.le_zero.mp h1)
    subst this
    rw [chunksAux_nil, chunksAux_nil]
  | succ n ih =>
    intro f2 l h1 h2
    match l, f2 with
    | [], f2 => rw [chunksAux_nil, chunksAux_nil]
    | x :: xs, f2 + 1 =>
      simp only [chunksAux]
      exact congrArg _ (ih f2 _
        (by simp only [List.length_drop, List.length_cons] at *; omega)
        (by simp only [List.length_drop, List.length_cons] at *; omega))

/-- The recursive unfolding of `chunks` on a non-empty list. -/
theorem chunks_cons (k : Nat) (l : Bytes) (h : l ≠ []) :
    chunks k l = l.take (k + 1) :: chunks k (l.drop (k + 1)) := by
  match l with
  | [] => exact absurd rfl h
  | x :: xs =>
    show chunksAux k (xs.length + 1) (x :: xs) = _
    simp only [chunksAux, chunks]
    congr 1
    exact chunksAux_congr k xs.length _ _ (by simp [List.length_drop]) le_rfl

theorem chunks_nil (k : Nat) : chunks k [] = [] := rfl

/-- ASCII bytes of a string (the source handles ASCII labels and bodies). -/
def strToBytes (s : String) : Bytes := s.data.map Char.toNat

/-! ## SHA-256 (FIPS 180-4), as used by `hashlib.sha256` -/

/-- The 64 SHA-256 round constants. -/
def sha256K : List Nat :=
  [1116352408, 1899447441, 3049323471, 3921009573, 961987163,
   1508970993, 2453635748, 2870763221, 3624381080, 310598401,
   607225278, 1426881987, 1925078388, 2162078206, 2614888103,
   3248222580, 3835390401, 4022224774, 264347078, 604807628,
   770255983, 1249150122, 1555081692, 1996064986, 2554220882,
   2821834349, 2952996808, 3210313671, 3336571891, 3584528711,
   113926993, 338241895, 666307205, 773529912, 1294757372,
   1396182291, 1695183700, 1986661051, 2177026350, 2456956037,
   2730485921, 2820302411, 3259730800, 3345764771, 3516065817,
   3600352804, 4094571909, 275423344, 430227734, 506948616,
   659060556, 883997877, 958139571, 1322822218, 1537002063,
   1747873779, 1955562222, 2024104815, 2227730452, 2361852424,
   2428436474, 2756734187, 3204031479, 3329325298]

/-- The eight-word SHA-256 working state. -/
structure H8 where
  a : Nat
  b : Nat
  c : Nat
  d : Nat
  e : Nat
  f : Nat
  g : Nat
  h : Nat
deriving DecidableEq

/-- The SHA-256 initial hash value. -/
def sha256H0 : H8 :=
  ⟨1779033703, 3144134277, 1013904242, 2773480762, 1359893119, 2600822924, 528734635, 1541459225⟩

/-- Right rotation of a 32-bit word. -/
def rotr32 (x n : Nat) : Nat := u32 ((x >>> n) ||| (x <<< (32 - n)))

/-- Bitwise complement of a 32-bit word. -/
def not32 (x : Nat) : Nat := x ^^^ 4294967295

/-- `Σ₀`. -/
def bsig0 (x : Nat) : Nat := rotr32 x 2 ^^^ rotr32 x 13 ^^^ rotr32 x 22
/-- `Σ₁`. -/
def bsig1 (x : Nat) : Nat := rotr32 x 6 ^^^ rotr32 x 11 ^^^ rotr32 x 25
/-- `σ₀`. -/
def ssig0 (x : Nat) : Nat := rotr32 x 7 ^^^ rotr32 x 18 ^^^ (x >>> 3)
/-- `σ₁`. -/
def ssig1 (x : Nat) : Nat := rotr32 x 17 ^^^ rotr32 x 19 ^^^ (x >>> 10)

/-- SHA-256 padding: append `0x80`, zeros to 56 mod 64, then the 64-bit big-endian bit length. -/
def sha256Pad (m : Bytes) : Bytes :=
  m ++ 128 :: List.replicate ((119 - (m.length + 1) % 64) % 64) 0 ++ toBE 8 (8 * m.length)

/-- Extend the 16 message-schedule words of one block to 64. -/
def sha256Schedule (w0 : List Nat) : List Nat :=
  (List.range 48).foldl
    (fun w i =>
      w ++ [u32 (ssig1 (w.getD (i + 14) 0) + w.getD (i + 9) 0 + ssig0 (w.getD (i + 1) 0) + w.getD i 0)])
    w0

/-- One SHA-256 round, consuming `K[t] + W[t]` (already summed). -/
def sha256Round (s : H8) (kw : Nat) : H8 :=
  let t1 := u32 (s.h + bsig1 s.e + ((s.e &&& s.f) ^^^ (not32 s.e &&& s.g)) + kw)
  let t2 := u32 (bsig0 s.a + ((s.a &&& s.b) ^^^ (s.a &&& s.c) ^^^ (s.b &&& s.c)))
  ⟨u32 (t1 + t2), s.a, s.b, s.c, u32 (s.d + t1), s.e, s.f, s.g⟩

/-- Compress one 64-byte block into the running state. -/
def sha256Compress (s : H8) (block : Bytes) : H8 :=
  let ws := sha256Schedule ((chunks 3 block).map beWord)
  let t := (sha256K.zip ws).foldl (fun st p => sha256Round st (u32 (p.1 + p.2))) s
  ⟨u32 (s.a + t.a), u32 (s.b + t.b), u32 (s.c + t.c), u32 (s.d + t.d),
   u32 (s.e + t.e), u32 (s.f + t.f), u32 (s.g + t.g), u32 (s.h + t.h)⟩

/-- SHA-256 digest (32 bytes) of a byte string. -/
def sha256 (m : Bytes) : Bytes :=
  let s := ((chunks 63 (sha256Pad m))).foldl sha256Compress sha256H0
  toBE 4 s.a ++ toBE 4 s.b ++ toBE 4 s.c ++ toBE 4 s.d ++
  toBE 4 s.e ++ toBE 4 s.f ++ toBE 4 s.g ++ toBE 4 s.h

example : sha256 [] =
    [0xe3, 0xb0, 0xc4, 0x42, 0x98, 0xfc, 0x1c, 0x14, 0x9a, 0xfb, 0xf4, 0xc8, 0x99, 0x6f, 0xb9,
     0x24, 0x27, 0xae, 0x41, 0xe4, 0x64, 0x9b, 0x93, 0x4c, 0xa4, 0x95, 0x99, 0x1b, 0x78, 0x52,
     0xb8, 0x55] := by decide

example : sha256 (strToBytes "abc") =
    [0xba, 0x78, 0x16, 0xbf, 0x8f, 0x01, 0xcf, 0xea, 0x41, 0x41, 0x40, 0xde, 0x5d, 0xae, 0x22,
     0x23, 0xb0, 0x03, 0x61, 0xa3, 0x96, 0x17, 0x7a, 0x9c, 0xb4, 0x10, 0xff, 0x61, 0xf2, 0x00,
     0x15, 0xad] := by decide

/-! ## HMAC-SHA256 (RFC 2104 / FIPS 198-1), as used by `hmac.new(..., hashlib.sha256)` -/

/-- Pad (or hash-then-pad) the key to the 64-byte SHA-256 block size. -/
def hmacKeyBlock (k : Bytes) : Bytes :=
  let k0 := if 64 < k.length then sha256 k else k
  k0 ++ List.replicate (64 - k0.length) 0

/-- HMAC-SHA256 of message `m` under key `k` (raw 32-byte digest). -/
def hmacSha256 (k m : Bytes) : Bytes :=
  let kb := hmacKeyBlock k
  sha256 ((kb.map (fun x => x ^^^ 92)) ++ sha256 ((kb.map (fun x => x ^^^ 54)) ++ m))

/-- Lowercase hex character of a value `< 16`. -/
def hexChar (n : Nat) : Char :=
  if n < 10 then Char.ofNat (48 + n) else Char.ofNat (87 + n)

/-- Lowercase hex string of a byte string, as produced by Python's `.hexdigest()`. -/
def hexOfBytes (l : Bytes) : String :=
  ⟨l.flatMap (fun b => [hexChar (b / 16 % 16), hexChar (b % 16)])⟩

/-- The hex HMAC-SHA256 signature `hmac.new(key, msg, hashlib.sha256).hexdigest()`
computed by both `verify_hmac` and `ingest_file` in `src/main.py`. -/
def hexHmac (key msg : Bytes) : String := hexOfBytes (hmacSha256 key msg)

/-- Model of Python's `hmac.compare_digest` on two strings: a constant-time
comparison whose result is equality of the two strings. -/
def compareDigest (a b : String) : Bool := a == b

example : hexHmac (List.replicate 20 11) (strToBytes "Hi There") =
    "b0344c61d8db38535ca8afceaf0bf12b881dc200c9833da726e9376c2e32cff7" := by decide

/-! ## HKDF-SHA256 (RFC 5869) with `salt=None`, 32-byte output, as used at startup -/

/-- HKDF-Extract with the salt defaulted to 32 zero bytes (`salt=None` in the source). -/
def hkdfExtract (ikm : Bytes) : Bytes := hmacSha256 (List.replicate 32 0) ikm

/-- HKDF-SHA256 with `length=32`, `salt=None`: the output is exactly the first
expansion block `T(1) = HMAC(PRK, info || 0x01)`. -/
def hkdfSha256_32 (ikm info : Bytes) : Bytes :=
  hmacSha256 (hkdfExtract ikm) (info ++ [1])

example : hkdfSha256_32 (List.replicate 22 11) [] =
    [0x8d, 0xa4, 0xe7, 0x75, 0xa5, 0x63, 0xc1, 0x8f, 0x71, 0x5f, 0x80, 0x2a, 0x06, 0x3c, 0x5a,
     0x31, 0xb8, 0xa1, 0x1f, 0x5c, 0x5e, 0xe1, 0x87, 0x9e, 0xc3, 0x45, 0x4e, 0x5f, 0x3c, 0x73,
     0x8d, 0x2d] := by decide

/-! ## URL-safe base64 (`base64.urlsafe_b64encode` / `base64.urlsafe_b64decode`)

The decoder below accepts exactly the URL-safe alphabet with canonical `=`
padding, and — like CPython's non-strict `binascii.a2b_base64` — it does NOT
validate the unused trailing bits of the final group, silently dropping them.
(CPython is additionally lenient in ways irrelevant here: it skips bytes
outside the alphabet and accepts the standard `+`/`/` alphabet; no theorem
below quantifies over inputs where that leniency matters.) -/

/-- ASCII code of the URL-safe base64 character for a 6-bit value. -/
def b64EncChar (v : Nat) : Nat :=
  if v < 26 then 65 + v
  else if v < 52 then 71 + v
  else if v < 62 then v - 4
  else if v = 62 then 45
  else 95

/-- 6-bit value of a URL-safe base64 ASCII code, `none` outside the alphabet. -/
def b64DecChar (c : Nat) : Option Nat :=
  if 65 ≤ c ∧ c ≤ 90 then some (c - 65)
  else if 97 ≤ c ∧ c ≤ 122 then some (c - 71)
  else if 48 ≤ c ∧ c ≤ 57 then some (c + 4)
  else if c = 45 then some 62
  else if c = 95 then some 63
  else none

/-- URL-safe base64 encoding of a byte string (result is the ASCII bytes of the
encoded text, `=`-padded). -/
def b64encode : Bytes → Bytes
  | [] => []
  | [b1] =>
    let x := b1 % 256
    [b64EncChar (x / 4), b64EncChar (x % 4 * 16), 61, 61]
  | [b1, b2] =>
    let x := b1 % 256
    let y := b2 % 256
    [b64EncChar (x / 4), b64EncChar (x % 4 * 16 + y / 16), b64EncChar (y % 16 * 4), 61]
  | b1 :: b2 :: b3 :: rest =>
    let x := b1 % 256
    let y := b2 % 256
    let z := b3 % 256
    b64EncChar (x / 4) :: b64EncChar (x % 4 * 16 + y / 16) ::
      b64EncChar (y % 16 * 4 + z / 64) :: b64EncChar (z % 64) :: b64encode rest

/-- Decode one full (unpadded) base64 group of four characters into three bytes. -/
def b64Group (c1 c2 c3 c4 : Nat) : Option Bytes :=
  match b64DecChar c1, b64DecChar c2, b64DecChar c3, b64DecChar c4 with
  | some v1, some v2, some v3, some v4 =>
    some [v1 * 4 + v2 / 16, v2 % 16 * 16 + v3 / 4, v3 % 4 * 64 + v4]
  | _, _, _, _ => none

/-- Decode the final base64 group: `xx==` yields one byte, `xxx=` two bytes,
an unpadded group three; unused trailing bits are dropped without validation
(CPython semantics). -/
def b64LastGroup (c1 c2 c3 c4 : Nat) : Option Bytes :=
  match b64DecChar c1, b64DecChar c2 with
  | some v1, some v2 =>
    if c3 = 61 then
      if c4 = 61 then some [v1 * 4 + v2 / 16] else none
    else
      match b64DecChar c3 with
      | some v3 =>
        if c4 = 61 then some [v1 * 4 + v2 / 16, v2 % 16 * 16 + v3 / 4]
        else b64Group c1 c2 c3 c4
      | none => none
  | _, _ => none

/-- URL-safe base64 decoding; unused trailing bits of a final padded group are
ignored (CPython semantics), a length not a multiple of four, a character
outside the alphabet, or padding before the final group is rejected. -/
def b64decode : Bytes → Option Bytes
  | [] => some []
  | c1 :: c2 :: c3 :: c4 :: rest =>
    if rest = [] then b64LastGroup c1 c2 c3 c4
    else do
      let g ← b64Group c1 c2 c3 c4
      let tl ← b64decode rest
      pure (g ++ tl)
  | _ => none

example : b64encode (strToBytes "any carnal pleasure.") = strToBytes "YW55IGNhcm5hbCBwbGVhc3VyZS4=" := by decide
example : b64decode (strToBytes "YW55IGNhcm5hbCBwbGVhc3VyZQ==") = some (strToBytes "any carnal pleasure") := by decide
example : b64decode (strToBytes "QR==") = some [65] := by decide
example : b64decode (strToBytes "QQ==") = some [65] := by decide

theorem b64DecChar_encChar (v : Nat) (h : v < 64) : b64DecChar (b64EncChar v) = some v := by
  revert v h; decide

theorem b64EncChar_ne_61 (v : Nat) (h : v < 64) : b64EncChar v ≠ 61 := by
  revert v h; decide

/-- Decoding inverts encoding on genuine byte strings. -/
theorem b64decode_encode (l : Bytes) (h : isBytes l) : b64decode (b64encode l) = some l := by
  induction l using b64encode.induct with
  | case1 => rfl
  | case2 b1 =>
    have h1 : b1 < 256 := h b1 (by simp)
    have e1 : b64DecChar (b64EncChar (b1 / 4)) = some (b1 / 4) :=
      b64DecChar_encChar _ (by omega)
    have e2 : b64DecChar (b64EncChar (b1 % 4 * 16)) = some (b1 % 4 * 16) :=
      b64DecChar_encChar _ (by omega)
    simp only [b64encode, Nat.mod_eq_of_lt h1, b64decode, if_pos rfl, b64LastGroup, e1, e2,
      if_pos (rfl : (61 : Nat) = 61), if_true, Option.some.injEq, List.cons.injEq, and_true]
    omega
  | case3 b1 b2 =>
    have h1 : b1 < 256 := h b1 (by simp)
    have h2 : b2 < 256 := h b2 (by simp)
    have e1 : b64DecChar (b64EncChar (b1 / 4)) = some (b1 / 4) :=
      b64DecChar_encChar _ (by omega)
    have e2 : b64DecChar (b64EncChar (b1 % 4 * 16 + b2 / 16)) = some (b1 % 4 * 16 + b2 / 16) :=
      b64DecChar_encChar _ (by omega)
    have e3 : b64DecChar (b64EncChar (b2 % 16 * 4)) = some (b2 % 16 * 4) :=
      b64DecChar_encChar _ (by omega)
    simp only [b64encode, Nat.mod_eq_of_lt h1, Nat.mod_eq_of_lt h2, b64decode, if_pos rfl,
      b64LastGroup, e1, e2, e3, if_neg (b64EncChar_ne_61 _ (by omega : b2 % 16 * 4 < 64)),
      if_pos (rfl : (61 : Nat) = 61), if_true, Option.some.injEq, List.cons.injEq, and_true]
    omega
  | case4 b1 b2 b3 rest ih =>
    have h1 : b1 < 256 := h b1 (by simp)
    have h2 : b2 < 256 := h b2 (by simp)
    have h3 : b3 < 256 := h b3 (by simp)
    have hrest : isBytes rest := fun x hx => h x (by simp [hx])
    have e1 : b64DecChar (b64EncChar (b1 / 4)) = some (b1 / 4) :=
      b64DecChar_encChar _ (by omega)
    have e2 : b64DecChar (b64EncChar (b1 % 4 * 16 + b2 / 16)) = some (b1 % 4 * 16 + b2 / 16) :=
      b64DecChar_encChar _ (by omega)
    have e3 : b64DecChar (b64EncChar (b2 % 16 * 4 + b3 / 64)) = some (b2 % 16 * 4 + b3 / 64) :=
      b64DecChar_encChar _ (by omega)
    have e4 : b64DecChar (b64EncChar (b3 % 64)) = some (b3 % 64) :=
      b64DecChar_encChar _ (by omega)
    have hgrp : b64Group (b64EncChar (b1 / 4)) (b64EncChar (b1 % 4 * 16 + b2 / 16))
        (b64EncChar (b2 % 16 * 4 + b3 / 64)) (b64EncChar (b3 % 64)) = some [b1, b2, b3] := by
      simp only [b64Group, e1, e2, e3, e4, Option.some.injEq, List.cons.injEq, and_true]
      refine ⟨by omega, by omega, by omega⟩
    by_cases hr : b64encode rest = []
    · have hre : rest = [] := by
        have h' := ih hrest
        rw [hr] at h'
        simp only [b64decode, Option.some.injEq] at h'
        exact h'.symm
      subst hre
      simp only [b64encode, Nat.mod_eq_of_lt h1, Nat.mod_eq_of_lt h2, Nat.mod_eq_of_lt h3,
        b64decode, if_pos rfl, b64LastGroup, e1, e2, e3,
        if_neg (b64EncChar_ne_61 _ (by omega : b2 % 16 * 4 + b3 / 64 < 64)),
        if_neg (b64EncChar_ne_61 _ (by omega : b3 % 64 < 64)), hgrp, if_true]
    · simp only [b64encode, Nat.mod_eq_of_lt h1, Nat.mod_eq_of_lt h2, Nat.mod_eq_of_lt h3,
        b64decode, if_neg hr, hgrp, ih hrest, Option.bind_eq_bind, Option.some_bind,
        List.cons_append, List.nil_append]
      rfl

/-! ## PKCS7 padding (block size 16), CBC mode, and the Fernet token format

`cryptography.fernet.Fernet` tokens: `0x80 || timestamp(8, BE) || iv(16) ||
AES128-CBC(ciphertext) || HMAC-SHA256 tag(32)`, URL-safe base64 encoded; the
32-byte Fernet key splits into a 16-byte HMAC signing key and a 16-byte AES
key.  The AES-128 block operation itself is an external primitive and is kept
as a `BlockCipher` parameter; everything else is concrete. -/

/-- PKCS7 padding to 16-byte blocks: append `n` copies of `n`, `1 ≤ n ≤ 16`. -/
def pkcs7pad (pt : Bytes) : Bytes :=
  let n := 16 - pt.length % 16
  pt ++ List.replicate n n

/-- PKCS7 unpadding: check the final byte `n` is `1..16` and that the last `n`
bytes all equal `n`; strip them.  Any violation is a padding error (`none`). -/
def pkcs7unpad (l : Bytes) : Option Bytes :=
  match l.getLast? with
  | none => none
  | some n =>
    if n = 0 ∨ 16 < n ∨ l.length < n then none
    else if (l.drop (l.length - n)).all (fun x => x = n) then some (l.take (l.length - n))
    else none

/-- An abstract 16-byte block cipher (the AES-128 block primitive used by
Fernet lives in the external `cryptography` library). -/
structure BlockCipher where
  enc : Bytes → Bytes → Bytes
  dec : Bytes → Bytes → Bytes

/-- A block cipher is correct for key `k` if, on 16-byte blocks of genuine
bytes, encryption produces 16 genuine bytes and decryption inverts it. -/
def BlockCipher.Correct (bc : BlockCipher) (k : Bytes) : Prop :=
  ∀ b : Bytes, b.length = 16 → isBytes b →
    (bc.enc k b).length = 16 ∧ isBytes (bc.enc k b) ∧ bc.dec k (bc.enc k b) = b

/-- The identity block cipher: a trivially correct `BlockCipher` instance used
to evaluate the model on concrete inputs. -/
def idCipher : BlockCipher := ⟨fun _ b => b, fun _ b => b⟩

/-- Byte-wise xor of two byte strings. -/
def xorBytes (a b : Bytes) : Bytes := List.zipWith (fun x y => x ^^^ y) a b

/-- CBC encryption over a list of 16-byte blocks with chaining value `prev`. -/
def cbcEncBlocks (bc : BlockCipher) (k : Bytes) : Bytes → List Bytes → List Bytes
  | _, [] => []
  | prev, p :: ps =>
    let c := bc.enc k (xorBytes p prev)
    c :: cbcEncBlocks bc k c ps

/-- CBC decryption over a list of 16-byte blocks with chaining value `prev`. -/
def cbcDecBlocks (bc : BlockCipher) (k : Bytes) : Bytes → List Bytes → List Bytes
  | _, [] => []
  | prev, c :: cs => xorBytes (bc.dec k c) prev :: cbcDecBlocks bc k c cs

/-- CBC encryption of a (padded) byte string under IV `iv`. -/
def cbcEncrypt (bc : BlockCipher) (k iv data : Bytes) : Bytes :=
  (cbcEncBlocks bc k iv (chunks 15 data)).flatten

/-- CBC decryption of a byte string under IV `iv`. -/
def cbcDecrypt (bc : BlockCipher) (k iv data : Bytes) : Bytes :=
  (cbcDecBlocks bc k iv (chunks 15 data)).flatten

/-- The two halves of a decoded 32-byte Fernet key: signing key then
encryption key. -/
structure FernetKeys where
  signingKey : Bytes
  encKey : Bytes
deriving DecidableEq

/-- `Fernet(key)`: base64-decode the key and require 32 bytes, as the
constructor of `cryptography.fernet.Fernet` does. -/
def fernetInit (keyB64 : Bytes) : Option FernetKeys :=
  match b64decode keyB64 with
  | none => none
  | some k => if k.length = 32 then some ⟨k.take 16, k.drop 16⟩ else none

/-- `Fernet.encrypt` with the timestamp and IV made explicit (the library
draws them from the clock and the OS RNG): assemble
`0x80 || ts || iv || CBC(pad(pt))`, tag it with HMAC-SHA256 under the signing
key, and base64-encode. -/
def fernetToken (bc : BlockCipher) (ks : FernetKeys) (ts : Nat) (iv pt : Bytes) : Bytes :=
  let ct := cbcEncrypt bc ks.encKey iv (pkcs7pad pt)
  let basic := 128 :: toBE 8 ts ++ iv ++ ct
  b64encode (basic ++ hmacSha256 ks.signingKey basic)

/-- The post-base64 stage of `Fernet.decrypt` on the decoded token bytes:
check `not data or data[0] != 0x80`, that a whole 8-byte timestamp is present,
verify the HMAC tag over everything but the last 32 bytes, then CBC-decrypt
`data[25:-32]` under IV `data[9:25]` and strip PKCS7 padding.  Every failure
mode collapses to `none` (`InvalidToken`). -/
def fernetDecryptData (bc : BlockCipher) (ks : FernetKeys) (data : Bytes) : Option Bytes :=
  if data = [] then none
  else if data.headD 0 ≠ 128 then none
  else if data.length < 9 then none
  else
    let signed := data.take (data.length - 32)
    let tag := data.drop (data.length - 32)
    if hmacSha256 ks.signingKey signed ≠ tag then none
    else
      let iv := (data.drop 9).take 16
      let ct := signed.drop 25
      if iv.length ≠ 16 then none
      else if ct.length % 16 ≠ 0 then none
      else pkcs7unpad (cbcDecrypt bc ks.encKey iv ct)

/-- `Fernet.decrypt` (with `ttl=None`, so no timestamp check, exactly as
`src/main.py` calls it): base64-decode — any decoding error is `InvalidToken`
— then process the decoded bytes. -/
def fernetDecrypt (bc : BlockCipher) (ks : FernetKeys) (tok : Bytes) : Option Bytes :=
  match b64decode tok with
  | none => none
  | some data => fernetDecryptData bc ks data

example :
    fernetDecrypt idCipher ⟨List.replicate 16 1, List.replicate 16 2⟩
      (fernetToken idCipher ⟨List.replicate 16 1, List.replicate 16 2⟩ 0
        (List.replicate 16 7) (strToBytes "hi")) = some (strToBytes "hi") := by decide

/-! ## Application startup: key derivation (`src/main.py` lines 78-88) -/

/-- Context label of the HMAC authentication key. -/
def AUTH_KEY_LABEL : Bytes := strToBytes "envoy-api-hmac-authentication-key"

/-- Context label of the Fernet encryption key. -/
def ENC_KEY_LABEL : Bytes := strToBytes "envoy-api-fernet-encryption-key"

/-- `AUTH_KEY = HKDF(SHA256, 32, salt=None, info=b'envoy-api-hmac-authentication-key').derive(MASTER_KEY)`. -/
def AUTH_KEY (master : Bytes) : Bytes := hkdfSha256_32 master AUTH_KEY_LABEL

/-- The raw 32-byte Fernet encryption key before base64 re-encoding. -/
def encKeyRaw (master : Bytes) : Bytes := hkdfSha256_32 master ENC_KEY_LABEL

/-- `ENCRYPTION_KEY = base64.urlsafe_b64encode(hkdf_encrypt.derive(MASTER_KEY))`. -/
def ENCRYPTION_KEY (master : Bytes) : Bytes := b64encode (encKeyRaw master)

/-- `FERNET_INSTANCE = Fernet(ENCRYPTION_KEY)`. -/
def FERNET_INSTANCE (master : Bytes) : Option FernetKeys := fernetInit (ENCRYPTION_KEY master)

/-- The two 16-byte halves of the raw Fernet key, as `FERNET_INSTANCE` holds them. -/
def fernetKeysOf (master : Bytes) : FernetKeys :=
  ⟨(encKeyRaw master).take 16, (encKeyRaw master).drop 16⟩

/-! ## Request handlers (`src/main.py` lines 92-166)

Handlers are modeled as pure functions from the request data to an
HTTP-level result (`Except (status, detail) response`) together with the list
of observable per-request effects, in order: reading the raw body, invoking
Fernet decryption, and handing data to a storage collaborator.  The JSON
parsing and Firestore document of `/boot`'s success branch are outside the
verified pipeline (external collaborators) and appear only as the opaque
`firestoreWrite` effect. -/

/-- An observable per-request effect of a handler. -/
inductive Effect where
  | readBody : Effect
  | decryptCall : Bytes → Effect
  | storageWrite : Bytes → Effect
  | firestoreWrite : Effect
deriving DecidableEq

/-- An HTTP error: status code and detail string. -/
abbrev HttpErr := Nat × String

/-- HTTP status of a handler result (200 on success). -/
def statusOf {α : Type} (r : Except HttpErr α) : Nat :=
  match r with
  | .error e => e.1
  | .ok _ => 200

/-- Response of `/boot`. -/
structure BootResp where
  status : String
  enable_telemetry : Bool
  log_level : String
deriving DecidableEq

/-- Response of `/directive`. -/
structure DirectiveResp where
  directive_id : String
  action : String
  target_path : String
deriving DecidableEq

/-- Response of `/ingest`. -/
structure IngestResp where
  status : String
  filename : String
  size : Nat
  gcs_path : String
deriving DecidableEq

/-- The `verify_hmac` dependency (`src/main.py` lines 92-99): a missing header
— or an empty one, since Python's `if not x_anchor_signature` treats `""` as
falsy — is rejected with 401 before the body is read; otherwise the raw body
is read, the expected hex HMAC-SHA256 digest is recomputed over it and
compared with `hmac.compare_digest`, rejecting mismatches with 403. -/
def verify_hmac (authKey body : Bytes) (x_anchor_signature : Option String) :
    Except HttpErr Unit × List Effect :=
  match x_anchor_signature with
  | none => (.error (401, "X-Anchor-Signature header missing"), [])
  | some s =>
    if s = "" then (.error (401, "X-Anchor-Signature header missing"), [])
    else
      let expected_signature := hexHmac authKey body
      if compareDigest expected_signature s then (.ok (), [.readBody])
      else (.error (403, "Invalid signature"), [.readBody])

/-- `/boot` (`src/main.py` lines 106-114), guarded by `Depends(verify_hmac)`;
in production the parsed boot data is written to Firestore. -/
def boot_endpoint (isProd : Bool) (authKey body : Bytes) (sig : Option String) :
    Except HttpErr BootResp × List Effect :=
  match verify_hmac authKey body sig with
  | (.error e, tr) => (.error e, tr)
  | (.ok _, tr) =>
    (.ok ⟨"boot_ack", true, "info"⟩, tr ++ if isProd then [Effect.firestoreWrite] else [])

/-- `/directive` (`src/main.py` lines 116-118), guarded by `Depends(verify_hmac)`;
`nowTs` stands for `int(datetime.utcnow().timestamp())`. -/
def directive_endpoint (authKey body : Bytes) (sig : Option String) (nowTs : Nat) :
    Except HttpErr DirectiveResp × List Effect :=
  match verify_hmac authKey body sig with
  | (.error e, tr) => (.error e, tr)
  | (.ok _, tr) => (.ok ⟨"cmd_" ++ toString nowTs, "SYNC_FILES", "/data/sync"⟩, tr)

/-- `/ingest` (`src/main.py` lines 120-166).  The signature header is declared
required (`Header(...)`), so FastAPI's request validation rejects a request
without it as 422 before the handler body runs.  Otherwise the handler reads
the raw body once, verifies the HMAC over exactly those bytes (403 on
mismatch), decrypts with `FERNET_INSTANCE` (400 on `InvalidToken`, whose
message is empty, hence the constant detail string), and in production uploads
`encrypted_contents` — the ciphertext as received — to the bucket (500 on
storage failure, whose message `e` is a parameter here); `now` stands for
`datetime.utcnow().isoformat()` and `filename` is a query parameter defaulting
to `"uploaded.file"`. -/
def ingest_file (bc : BlockCipher) (isProd : Bool) (bucket now : String)
    (storageErr : Option String) (authKey : Bytes) (ks : FernetKeys)
    (x_anchor_signature : Option String) (filename : Option String) (body : Bytes) :
    Except HttpErr IngestResp × List Effect :=
  match x_anchor_signature with
  | none => (.error (422, "Field required"), [])
  | some s =>
    let fname := filename.getD "uploaded.file"
    let expected_signature := hexHmac authKey body
    if ¬ compareDigest expected_signature s then
      (.error (403, "Invalid signature"), [.readBody])
    else
      match fernetDecrypt bc ks body with
      | none =>
        (.error (400, "Invalid encrypted payload or key: "), [.readBody, .decryptCall body])
      | some _ =>
        if isProd then
          match storageErr with
          | some e =>
            (.error (500, "Failed to store file: " ++ e),
             [.readBody, .decryptCall body, .storageWrite body])
          | none =>
            (.ok ⟨"ingest_ack", fname, body.length,
                  "gs://" ++ bucket ++ "/uploads/" ++ now ++ "_" ++ fname⟩,
             [.readBody, .decryptCall body, .storageWrite body])
        else
          (.ok ⟨"ingest_ack", fname, body.length,
                "gs://local-bucket/uploads/mock_" ++ now ++ "_" ++ fname⟩,
           [.readBody, .decryptCall body])

/-! ## Supporting lemmas -/

theorem toBE_length (k n : Nat) : (toBE k n).length = k := by
  simp [toBE]

theorem isBytes_toBE (k n : Nat) : isBytes (toBE k n) := by
  intro x hx
  simp only [toBE, List.mem_map] at hx
  obtain ⟨i, -, rfl⟩ := hx
  exact Nat.mod_lt _ (by norm_num)

theorem sha256_length (m : Bytes) : (sha256 m).length = 32 := by
  simp [sha256, toBE_length]

theorem isBytes_sha256 (m : Bytes) : isBytes (sha256 m) := by
  intro x hx
  simp only [sha256, List.mem_append] at hx
  rcases hx with ((((((h | h) | h) | h) | h) | h) | h) | h <;> exact isBytes_toBE _ _ _ h

theorem hmacSha256_length (k m : Bytes) : (hmacSha256 k m).length = 32 := sha256_length _

theorem isBytes_hmacSha256 (k m : Bytes) : isBytes (hmacSha256 k m) := isBytes_sha256 _

theorem encKeyRaw_length (master : Bytes) : (encKeyRaw master).length = 32 :=
  hmacSha256_length _ _

theorem isBytes_encKeyRaw (master : Bytes) : isBytes (encKeyRaw master) :=
  isBytes_hmacSha256 _ _

/-- Constructing the Fernet instance from the derived, base64-re-encoded key
succeeds and yields the two halves of the raw derived key. -/
theorem FERNET_INSTANCE_eq (master : Bytes) :
    FERNET_INSTANCE master = some (fernetKeysOf master) := by
  show fernetInit (b64encode (encKeyRaw master)) = _
  rw [fernetInit, b64decode_encode _ (isBytes_encKeyRaw master)]
  show (if (encKeyRaw master).length = 32 then
      some (⟨(encKeyRaw master).take 16, (encKeyRaw master).drop 16⟩ : FernetKeys)
    else none) = some (fernetKeysOf master)
  rw [if_pos (encKeyRaw_length master)]
  rfl

theorem flatten_chunks (k : Nat) (l : Bytes) : (chunks k l).flatten = l := by
  have main : ∀ (n : Nat) (l : Bytes), l.length = n → (chunks k l).flatten = l := by
    intro n
    induction n using Nat.strong_induction_on with
    | _ n ih =>
      intro l hn
      cases l with
      | nil => simp [chunks_nil]
      | cons x xs =>
        rw [chunks_cons k _ (by simp)]
        simp only [List.flatten_cons]
        rw [ih ((x :: xs).drop (k + 1)).length
          (by simp only [List.length_drop, List.length_cons] at *; omega) _ rfl]
        exact List.take_append_drop _ _
  exact main _ l rfl

theorem chunks16_length (l : Bytes) (hm : l.length % 16 = 0) :
    ∀ c ∈ chunks 15 l, c.length = 16 := by
  have main : ∀ (n : Nat) (l : Bytes), l.length = n → l.length % 16 = 0 →
      ∀ c ∈ chunks 15 l, c.length = 16 := by
    intro n
    induction n using Nat.strong_induction_on with
    | _ n ih =>
      intro l hn hm0
      cases l with
      | nil => simp [chunks_nil]
      | cons x xs =>
        rw [chunks_cons 15 _ (by simp)]
        intro c hc
        have hge : 16 ≤ (x :: xs).length := by
          have : 0 < (x :: xs).length := by simp
          omega
        rcases List.mem_cons.mp hc with rfl | hc
        · simp only [List.length_take]
          omega
        · exact ih ((x :: xs).drop 16).length
            (by simp only [List.length_drop] at *; omega) _ rfl
            (by simp only [List.length_drop] at *; omega) c hc
  exact main _ l rfl hm

theorem flatten_length_16 : ∀ (bs : List Bytes), (∀ b ∈ bs, b.length = 16) →
    bs.flatten.length = 16 * bs.length
  | [], _ => rfl
  | b :: bs, h => by
    simp only [List.flatten_cons, List.length_append, List.length_cons,
      h b (by simp), flatten_length_16 bs (fun q hq => h q (by simp [hq]))]
    ring

theorem chunks_flatten_of : ∀ (bs : List Bytes), (∀ b ∈ bs, b.length = 16) →
    chunks 15 bs.flatten = bs
  | [], _ => by simp [chunks_nil]
  | b :: bs, h => by
    have hb : b.length = 16 := h b (by simp)
    have hbne : b ≠ [] := by
      intro hcon
      rw [hcon] at hb
      simp at hb
    rw [List.flatten_cons, chunks_cons 15 _ (by simp [hbne])]
    have h16 : (15 : Nat) + 1 = b.length := by omega
    congr 1
    · rw [h16]
      exact List.take_left _ _
    · rw [h16, List.drop_left]
      exact chunks_flatten_of bs (fun q hq => h q (by simp [hq]))

theorem xorBytes_length (a b : Bytes) : (xorBytes a b).length = min a.length b.length :=
  List.length_zipWith _ _ _

theorem idCipher_correct (k : Bytes) : idCipher.Correct k :=
  fun _ hlen hB => ⟨hlen, hB, rfl⟩

theorem isBytes_xorBytes : ∀ (a b : Bytes), isBytes a → isBytes b →
    isBytes (xorBytes a b)
  | [], _, _, _ => by intro x hx; simp [xorBytes] at hx
  | _ :: _, [], _, _ => by intro x hx; simp [xorBytes] at hx
  | x :: xs, y :: ys, ha, hb => by
    intro z hz
    simp only [xorBytes, List.zipWith_cons_cons, List.mem_cons] at hz
    rcases hz with rfl | hz
    · have h8 : (256 : Nat) = 2 ^ 8 := by norm_num
      have hxy : x ^^^ y < 2 ^ 8 :=
        Nat.xor_lt_two_pow (h8 ▸ ha x (by simp)) (h8 ▸ hb y (by simp))
      exact lt_of_lt_of_le hxy (le_of_eq (by norm_num))
    · exact isBytes_xorBytes xs ys (fun q hq => ha q (by simp [hq]))
        (fun q hq => hb q (by simp [hq])) z hz

theorem chunks_subset (k : Nat) (l : Bytes) : ∀ c ∈ chunks k l, ∀ x ∈ c, x ∈ l := by
  have main : ∀ (n : Nat) (l : Bytes), l.length = n → ∀ c ∈ chunks k l, ∀ x ∈ c, x ∈ l := by
    intro n
    induction n using Nat.strong_induction_on with
    | _ n ih =>
      intro l hn
      cases l with
      | nil => simp [chunks_nil]
      | cons a as =>
        rw [chunks_cons k _ (by simp)]
        intro c hc x hx
        rcases List.mem_cons.mp hc with rfl | hc
        · exact List.mem_of_mem_take hx
        · exact List.mem_of_mem_drop
            (ih ((a :: as).drop (k + 1)).length
              (by simp only [List.length_drop, List.length_cons] at *; omega) _ rfl c hc x hx)
  exact main _ l rfl

theorem xorBytes_cancel : ∀ (a b : Bytes), a.length ≤ b.length →
    xorBytes (xorBytes a b) b = a
  | [], _, _ => rfl
  | x :: xs, [], h => by simp at h
  | x :: xs, y :: ys, h => by
    simp only [xorBytes, List.zipWith_cons_cons]
    rw [Nat.xor_cancel_right]
    exact congrArg _ (xorBytes_cancel xs ys (by simpa using h))

theorem cbcEncBlocks_facts (bc : BlockCipher) (k : Bytes) (hC : bc.Correct k) :
    ∀ (ps : List Bytes) (prev : Bytes), (∀ p ∈ ps, p.length = 16 ∧ isBytes p) →
      prev.length = 16 → isBytes prev →
      (∀ c ∈ cbcEncBlocks bc k prev ps, c.length = 16 ∧ isBytes c) ∧
      cbcDecBlocks bc k prev (cbcEncBlocks bc k prev ps) = ps
  | [], prev, _, _, _ => by constructor <;> simp [cbcEncBlocks, cbcDecBlocks]
  | p :: ps, prev, hp, hprev, hprevB => by
    have hx : (xorBytes p prev).length = 16 := by
      rw [xorBytes_length, (hp p (by simp)).1, hprev]
      simp
    have hxB : isBytes (xorBytes p prev) := isBytes_xorBytes p prev (hp p (by simp)).2 hprevB
    obtain ⟨hlen, hbytes, hdec⟩ := hC _ hx hxB
    have ihres := cbcEncBlocks_facts bc k hC ps (bc.enc k (xorBytes p prev))
      (fun q hq => hp q (by simp [hq])) hlen hbytes
    constructor
    · intro c hc
      simp only [cbcEncBlocks] at hc
      rcases List.mem_cons.mp hc with rfl | hc
      · exact ⟨hlen, hbytes⟩
      · exact ihres.1 c hc
    · simp only [cbcEncBlocks, cbcDecBlocks]
      rw [hdec, xorBytes_cancel p prev (by rw [(hp p (by simp)).1, hprev])]
      exact congrArg _ ihres.2

theorem cbcEncrypt_block_facts (bc : BlockCipher) (k iv data : Bytes) (hC : bc.Correct k)
    (hiv : iv.length = 16) (hivB : isBytes iv) (hmod : data.length % 16 = 0)
    (hdataB : isBytes data) :
    ∀ c ∈ chunks 15 (cbcEncrypt bc k iv data), c.length = 16 ∧ isBytes c := by
  have hfacts := cbcEncBlocks_facts bc k hC (chunks 15 data) iv
    (fun c hc => ⟨chunks16_length data hmod c hc,
      fun x hx => hdataB x (chunks_subset 15 data c hc x hx)⟩) hiv hivB
  intro c hc
  rw [cbcEncrypt, chunks_flatten_of _ (fun q hq => (hfacts.1 q hq).1)] at hc
  exact hfacts.1 c hc

theorem isBytes_cbcEncrypt (bc : BlockCipher) (k iv data : Bytes) (hC : bc.Correct k)
    (hiv : iv.length = 16) (hivB : isBytes iv) (hmod : data.length % 16 = 0)
    (hdataB : isBytes data) :
    isBytes (cbcEncrypt bc k iv data) := by
  have hfacts := cbcEncBlocks_facts bc k hC (chunks 15 data) iv
    (fun c hc => ⟨chunks16_length data hmod c hc,
      fun x hx => hdataB x (chunks_subset 15 data c hc x hx)⟩) hiv hivB
  intro x hx
  rw [cbcEncrypt] at hx
  obtain ⟨l, hl, hxl⟩ := List.mem_flatten.mp hx
  exact (hfacts.1 l hl).2 x hxl

theorem cbcEncrypt_length_mod (bc : BlockCipher) (k iv data : Bytes) (hC : bc.Correct k)
    (hiv : iv.length = 16) (hivB : isBytes iv) (hmod : data.length % 16 = 0)
    (hdataB : isBytes data) :
    (cbcEncrypt bc k iv data).length % 16 = 0 := by
  have hfacts := cbcEncBlocks_facts bc k hC (chunks 15 data) iv
    (fun c hc => ⟨chunks16_length data hmod c hc,
      fun x hx => hdataB x (chunks_subset 15 data c hc x hx)⟩) hiv hivB
  rw [cbcEncrypt, flatten_length_16 _ (fun q hq => (hfacts.1 q hq).1)]
  omega

theorem cbcDecrypt_cbcEncrypt (bc : BlockCipher) (k iv data : Bytes) (hC : bc.Correct k)
    (hiv : iv.length = 16) (hivB : isBytes iv) (hmod : data.length % 16 = 0)
    (hdataB : isBytes data) :
    cbcDecrypt bc k iv (cbcEncrypt bc k iv data) = data := by
  have hfacts := cbcEncBlocks_facts bc k hC (chunks 15 data) iv
    (fun c hc => ⟨chunks16_length data hmod c hc,
      fun x hx => hdataB x (chunks_subset 15 data c hc x hx)⟩) hiv hivB
  rw [cbcDecrypt, cbcEncrypt, chunks_flatten_of _ (fun q hq => (hfacts.1 q hq).1), hfacts.2]
  exact flatten_chunks _ _

theorem pkcs7pad_length_mod (pt : Bytes) : (pkcs7pad pt).length % 16 = 0 := by
  have : pt.length % 16 < 16 := Nat.mod_lt _ (by norm_num)
  simp only [pkcs7pad, List.length_append, List.length_replicate]
  omega

theorem pkcs7unpad_append (pt : Bytes) (n : Nat) (h1 : 1 ≤ n) (h16 : n ≤ 16) :
    pkcs7unpad (pt ++ List.replicate n n) = some pt := by
  have hlen : (pt ++ List.replicate n n).length = pt.length + n := by simp
  have hlast : (pt ++ List.replicate n n).getLast? = some n := by
    rw [List.getLast?_append]
    match n, h1 with
    | m + 1, _ => simp [List.getLast?_replicate]
  have hsub : (pt ++ List.replicate n n).length - n = pt.length := by omega
  simp only [pkcs7unpad, hlast]
  rw [if_neg (by omega)]
  rw [if_pos]
  · rw [hsub]
    exact congrArg some (List.take_left _ _)
  · rw [hsub, List.drop_left]
    simp

theorem pkcs7unpad_pad (pt : Bytes) : pkcs7unpad (pkcs7pad pt) = some pt := by
  have : pt.length % 16 < 16 := Nat.mod_lt _ (by norm_num)
  exact pkcs7unpad_append pt _ (by omega) (by omega)

theorem fernetDecrypt_of_decode (bc : BlockCipher) (ks : FernetKeys) (tok data : Bytes)
    (h : b64decode tok = some data) :
    fernetDecrypt bc ks tok = fernetDecryptData bc ks data := by
  rw [fernetDecrypt, h]

/-- Parsing a well-formed token: on `basic ++ HMAC(basic)` with
`basic = 0x80 || ts(8) || iv(16) || ct` and `ct` a whole number of blocks,
`fernetDecryptData` passes the version, length and tag checks and reduces to
CBC decryption followed by unpadding. -/
theorem fernetDecryptData_wellFormed (bc : BlockCipher) (ks : FernetKeys)
    (tsB iv ct : Bytes) (hts : tsB.length = 8) (hiv : iv.length = 16)
    (hct : ct.length % 16 = 0) :
    fernetDecryptData bc ks
      ((128 :: tsB ++ iv ++ ct) ++ hmacSha256 ks.signingKey (128 :: tsB ++ iv ++ ct)) =
      pkcs7unpad (cbcDecrypt bc ks.encKey iv ct) := by
  have hdlen : ((128 :: tsB ++ iv ++ ct) ++
      hmacSha256 ks.signingKey (128 :: tsB ++ iv ++ ct)).length =
      (128 :: tsB ++ iv ++ ct).length + 32 := by
    simp only [List.length_append, List.length_cons, hmacSha256_length]
  have hblen : (128 :: tsB ++ iv ++ ct).length = 25 + ct.length := by
    simp only [List.length_append, List.length_cons, hts, hiv]
  have hidx : ((128 :: tsB ++ iv ++ ct) ++
      hmacSha256 ks.signingKey (128 :: tsB ++ iv ++ ct)).length - 32 =
      (128 :: tsB ++ iv ++ ct).length := by omega
  have hsigned : ((128 :: tsB ++ iv ++ ct) ++
      hmacSha256 ks.signingKey (128 :: tsB ++ iv ++ ct)).take
        (((128 :: tsB ++ iv ++ ct) ++
          hmacSha256 ks.signingKey (128 :: tsB ++ iv ++ ct)).length - 32) =
      128 :: tsB ++ iv ++ ct := by
    rw [hidx]
    exact List.take_left _ _
  have htag : ((128 :: tsB ++ iv ++ ct) ++
      hmacSha256 ks.signingKey (128 :: tsB ++ iv ++ ct)).drop
        (((128 :: tsB ++ iv ++ ct) ++
          hmacSha256 ks.signingKey (128 :: tsB ++ iv ++ ct)).length - 32) =
      hmacSha256 ks.signingKey (128 :: tsB ++ iv ++ ct) := by
    rw [hidx]
    exact List.drop_left _ _
  have hdrop9 : (128 :: tsB ++ iv ++ ct).drop 9 = iv ++ ct := by
    have h1 : (128 :: tsB ++ iv ++ ct) = (128 :: tsB) ++ (iv ++ ct) := by simp
    rw [h1, show (9 : Nat) = (128 :: tsB).length from by simp [hts], List.drop_left]
  have hivx : (((128 :: tsB ++ iv ++ ct) ++
      hmacSha256 ks.signingKey (128 :: tsB ++ iv ++ ct)).drop 9).take 16 = iv := by
    rw [List.drop_append_of_le_length (by simp only [List.length_append, List.length_cons, hts]; omega), hdrop9, List.append_assoc,
      show (16 : Nat) = iv.length from hiv.symm, List.take_left]
  have hctx : (128 :: tsB ++ iv ++ ct).drop 25 = ct := by
    have h1 : (128 :: tsB ++ iv ++ ct) = ((128 :: tsB) ++ iv) ++ ct := by simp
    rw [h1, show (25 : Nat) = ((128 :: tsB) ++ iv).length from by simp [hts, hiv],
      List.drop_left]
  rw [fernetDecryptData]
  rw [if_neg (by simp), if_neg (by simp), if_neg (by omega)]
  simp only [hsigned, htag]
  rw [if_neg (by simp), hivx, hctx, if_neg (by simp [hiv]), if_neg (by simp [hct])]

/-- The Payload Cipher round-trips: decrypting an encrypted token under the
same Fernet keys recovers the plaintext, for any correct block-cipher
primitive, timestamp, 16-byte IV and plaintext. -/
theorem fernetDecrypt_fernetToken (bc : BlockCipher) (ks : FernetKeys) (ts : Nat)
    (iv pt : Bytes) (hC : bc.Correct ks.encKey) (hiv : iv.length = 16)
    (hivB : isBytes iv) (hpt : isBytes pt) :
    fernetDecrypt bc ks (fernetToken bc ks ts iv pt) = some pt := by
  have hpadmod : (pkcs7pad pt).length % 16 = 0 := pkcs7pad_length_mod pt
  have hpadB : isBytes (pkcs7pad pt) := by
    intro x hx
    rcases List.mem_append.mp hx with hx | hx
    · exact hpt x hx
    · have := List.eq_of_mem_replicate hx
      subst this
      have : pt.length % 16 < 16 := Nat.mod_lt _ (by norm_num)
      omega
  have hctmod : (cbcEncrypt bc ks.encKey iv (pkcs7pad pt)).length % 16 = 0 :=
    cbcEncrypt_length_mod bc ks.encKey iv (pkcs7pad pt) hC hiv hivB hpadmod hpadB
  have hB : isBytes ((128 :: toBE 8 ts ++ iv ++ cbcEncrypt bc ks.encKey iv (pkcs7pad pt)) ++
      hmacSha256 ks.signingKey
        (128 :: toBE 8 ts ++ iv ++ cbcEncrypt bc ks.encKey iv (pkcs7pad pt))) := by
    intro x hx
    rcases List.mem_append.mp hx with hx | hx
    · rcases List.mem_cons.mp hx with rfl | hx
      · norm_num
      · rcases List.mem_append.mp hx with hx | hx
        · rcases List.mem_append.mp hx with hx | hx
          · exact isBytes_toBE _ _ _ hx
          · exact hivB _ hx
        · exact isBytes_cbcEncrypt bc ks.encKey iv (pkcs7pad pt) hC hiv hivB hpadmod hpadB _ hx
    · exact isBytes_hmacSha256 _ _ _ hx
  rw [fernetToken]
  rw [fernetDecrypt_of_decode bc ks _ _ (b64decode_encode _ hB)]
  rw [fernetDecryptData_wellFormed bc ks _ _ _ (toBE_length 8 ts) hiv hctmod]
  rw [cbcDecrypt_cbcEncrypt bc ks.encKey iv (pkcs7pad pt) hC hiv hivB hpadmod hpadB]
  exact pkcs7unpad_pad pt

/-! ## The claims

`Mtest` is the master secret of the spec's end-to-end scenarios
(`ANCHOR_KEY_MASTER` in `src/test_client.py`). -/

/-- The concrete master secret `"ENVOY_API_PASS1234"`. -/
def Mtest : Bytes := strToBytes "ENVOY_API_PASS1234"

/-- C1, counterexample: a file-ingest request with no `X-Anchor-Signature`
header is rejected by FastAPI's validation of the required `Header(...)`
parameter with status 422, not with 401 as the claim states. -/
theorem C1_counterexample :
    statusOf (ingest_file idCipher false "bucket" "now" none (AUTH_KEY Mtest)
      (fernetKeysOf Mtest) none none []).1 = 422 ∧ (422 : Nat) ≠ 401 := by
  constructor
  · rfl
  · decide

/-- C1 (amended): a missing `X-Anchor-Signature` header is rejected before the
body is read or interpreted on all three protected operations; boot-announce
and directive-fetch answer 401 from `verify_hmac`, while file-ingest declares
the header required so the framework answers 422 before the handler runs.  In
every case the effect trace is empty: no body read, no decryption, no storage
handoff. -/
theorem C1_amended_missing_header (isProd : Bool) (bucket now : String)
    (serr : Option String) (bc : BlockCipher) (master body : Bytes) (ks : FernetKeys)
    (fn : Option String) (nowTs : Nat) :
    boot_endpoint isProd (AUTH_KEY master) body none =
      (.error (401, "X-Anchor-Signature header missing"), []) ∧
    directive_endpoint (AUTH_KEY master) body none nowTs =
      (.error (401, "X-Anchor-Signature header missing"), []) ∧
    ingest_file bc isProd bucket now serr (AUTH_KEY master) ks none fn body =
      (.error (422, "Field required"), []) :=
  ⟨rfl, rfl, rfl⟩

/-- C6: the Payload Cipher round-trips: for every correct block-cipher
primitive, every master secret, timestamp, 16-byte IV and plaintext byte
string, decrypting the encrypted token under the derived Fernet keys recovers
the plaintext exactly. -/
theorem C6_cipher_roundTrip (bc : BlockCipher) (master : Bytes) (ts : Nat)
    (iv pt : Bytes) (hC : bc.Correct (fernetKeysOf master).encKey)
    (hiv : iv.length = 16) (hivB : isBytes iv) (hpt : isBytes pt) :
    fernetDecrypt bc (fernetKeysOf master)
      (fernetToken bc (fernetKeysOf master) ts iv pt) = some pt :=
  fernetDecrypt_fernetToken bc (fernetKeysOf master) ts iv pt hC hiv hivB hpt

/-- C6, witness: the round-trip evaluated concretely under the scenario master
secret. -/
theorem C6_cipher_roundTrip_witness :
    fernetDecrypt idCipher (fernetKeysOf Mtest)
      (fernetToken idCipher (fernetKeysOf Mtest) 123 (List.replicate 16 9)
        (strToBytes "payload")) = some (strToBytes "payload") :=
  C6_cipher_roundTrip idCipher Mtest 123 (List.replicate 16 9) (strToBytes "payload")
    (idCipher_correct _) (by decide) (by decide) (by decide)

/-- A concrete valid 100-character token whose final base64 group carries four
unused trailing bits, used to exercise C7. -/
def tokC7 : Bytes :=
  fernetToken idCipher (fernetKeysOf Mtest) 0 (List.replicate 16 3) (strToBytes "hi")

/-- The same token with its single byte at index 97 changed from `'w'` (119)
to `'x'` (120): a one-byte modification inside the unused trailing bits of the
final base64 group. -/
theorem C7_tamper_detection_fails :
    tokC7.set 97 120 ≠ tokC7 ∧
    (tokC7.set 97 120).length = tokC7.length ∧
    fernetDecrypt idCipher (fernetKeysOf Mtest) tokC7 = some (strToBytes "hi") ∧
    fernetDecrypt idCipher (fernetKeysOf Mtest) (tokC7.set 97 120) =
      some (strToBytes "hi") := by
  refine ⟨by decide, by decide, by decide, by decide⟩

